import Mathlib

/-!
Shallow embedding of the `wasm-game-of-life` simulation engine: the bit-dense
cell storage (`BitStore`), the toroidal `Universe` with its coordinate mapping,
neighbor counting and generational transition, and the shape-transformation
utilities.  All machine integers (`u32`, `u8`, `usize` on the `wasm32` target)
are modelled as `Nat` with explicit `% 2 ^ 32` (resp. masking to a byte) at the
operations where the Rust code can wrap.
-/

/-- `u32` modulus: arithmetic on `u32` wraps modulo `2 ^ 32`. -/
def u32size : Nat := 2 ^ 32

/-- `u32` wrapping addition, as in Rust's `x.wrapping_add(y)`. -/
def wrapAdd32 (a b : Nat) : Nat := (a + b) % u32size

/-- Bit-dense storage for cells: `pub struct BitStore(Vec<u8>)`.  Each list
element models one `u8` of the backing vector. -/
structure BitStore where
  data : List Nat
deriving DecidableEq

namespace BitStore

/-- The mask `1 << (idx % 8)` computed by `BitStore::get` / `BitStore::set`
(the shift amount is below 8, so the `u8` shift never overflows). -/
def mask (idx : Nat) : Nat := 1 <<< (idx % 8)

/-- `BitStore::get`: `self.0[idx/8] & mask == mask`.  An out-of-range byte
index panics in Rust; here it reads the default `0` (the claims about `get`
carry the in-range precondition, and the bounds claim is settled separately). -/
def get (s : BitStore) (idx : Nat) : Bool :=
  s.data.getD (idx / 8) 0 &&& mask idx == mask idx

/-- `BitStore::set`: `self.0[idx/8] |= mask` when setting, and
`self.0[idx/8] &= !mask` when clearing; `!mask` on a `u8` is `255 ^^^ mask`.
An out-of-range byte index panics in Rust; here `List.set` leaves the store
unchanged. -/
def set (s : BitStore) (idx : Nat) (val : Bool) : BitStore :=
  if val then
    ⟨s.data.set (idx / 8) (s.data.getD (idx / 8) 0 ||| mask idx)⟩
  else
    ⟨s.data.set (idx / 8) (s.data.getD (idx / 8) 0 &&& (255 ^^^ mask idx))⟩

/-- `BitStore::size`: the number of bytes the data occupies. -/
def size (s : BitStore) : Nat := s.data.length

/-- `BitStore::empty`: `max = length/8 + (length % 8 != 0) as usize` zero
bytes. -/
def empty (length : Nat) : BitStore :=
  ⟨List.replicate (length / 8 + if length % 8 ≠ 0 then 1 else 0) 0⟩

/-- `BitStore::random`: the same byte count as `empty`, each byte drawn from
the external random source.  The source `Math::random()` is modelled as an
injected function `randByte`; `(Math::random() * 256.0) as u8` always lies in
`[0, 256)`, hence the `% 256`. -/
def random (length : Nat) (randByte : Nat → Nat) : BitStore :=
  ⟨(List.range (length / 8 + if length % 8 ≠ 0 then 1 else 0)).map
    (fun i => randByte i % 256)⟩

theorem mask_eq_two_pow (idx : Nat) : mask idx = 2 ^ (idx % 8) := by
  simp [mask, Nat.shiftLeft_eq]

theorem getD_set_self (l : List Nat) (i a d : Nat) (h : i < l.length) :
    (l.set i a).getD i d = a := by
  simp [List.getD_eq_getElem?_getD, List.getElem?_set_self h]

theorem getD_set_ne (l : List Nat) (i j a d : Nat) (h : i ≠ j) :
    (l.set i a).getD j d = l.getD j d := by
  simp [List.getD_eq_getElem?_getD, List.getElem?_set_ne h]

theorem testBit_255 (m : Nat) (hm : m < 8) : (255 : Nat).testBit m = true := by
  interval_cases m <;> decide

/-- `get` reads exactly the bit `idx % 8` of byte `idx / 8`. -/
theorem get_eq_testBit (s : BitStore) (idx : Nat) :
    s.get idx = (s.data.getD (idx / 8) 0).testBit (idx % 8) := by
  have h := Nat.and_two_pow (s.data.getD (idx / 8) 0) (idx % 8)
  rw [get, mask_eq_two_pow]
  rcases hb : (s.data.getD (idx / 8) 0).testBit (idx % 8) with _ | _ <;> rw [hb] at h <;> rw [h]
  · simp [(Nat.two_pow_pos (idx % 8)).ne]
  · simp

/-- The byte buffer written by `set`. -/
theorem set_data (s : BitStore) (idx : Nat) (v : Bool) :
    (s.set idx v).data = s.data.set (idx / 8)
      (if v then s.data.getD (idx / 8) 0 ||| mask idx
       else s.data.getD (idx / 8) 0 &&& (255 ^^^ mask idx)) := by
  rcases v with _ | _ <;> simp [set]

theorem length_set (s : BitStore) (idx : Nat) (v : Bool) :
    (s.set idx v).data.length = s.data.length := by
  rw [set_data, List.length_set]

/-- Setting a bit and reading it back returns the written value, provided the
byte index is inside the buffer. -/
theorem get_set_eq (s : BitStore) (idx : Nat) (v : Bool)
    (h : idx / 8 < s.data.length) : (s.set idx v).get idx = v := by
  rw [get_eq_testBit, set_data, getD_set_self _ _ _ _ h, mask_eq_two_pow]
  have h255 := testBit_255 (idx % 8) (Nat.mod_lt _ (by norm_num))
  rcases v with _ | _
  · simp [Nat.testBit_land, Nat.testBit_xor, Nat.testBit_two_pow, h255]
  · simp [Nat.testBit_lor, Nat.testBit_two_pow]

/-- Setting bit `idx` leaves every other bit `j` unchanged. -/
theorem get_set_ne (s : BitStore) (idx j : Nat) (v : Bool) (hne : j ≠ idx) :
    (s.set idx v).get j = s.get j := by
  rw [get_eq_testBit, get_eq_testBit, set_data]
  by_cases hbyte : idx / 8 = j / 8
  · rw [← hbyte]
    by_cases hlen : idx / 8 < s.data.length
    · rw [getD_set_self _ _ _ _ hlen, mask_eq_two_pow]
      have hbit : j % 8 ≠ idx % 8 := fun hb => hne (by omega)
      have h255 := testBit_255 (j % 8) (Nat.mod_lt _ (by norm_num))
      rcases v with _ | _
      · simp [Nat.testBit_land, Nat.testBit_xor, Nat.testBit_two_pow, h255, Ne.symm hbit]
      · simp [Nat.testBit_lor, Nat.testBit_two_pow, Ne.symm hbit]
    · rw [List.set_eq_of_length_le (by omega)]
  · rw [getD_set_ne _ _ _ _ _ hbyte]

end BitStore

/-- `pub struct Universe { width: u32, height: u32, cells: BitStore }`. -/
structure Universe where
  width : Nat
  height : Nat
  cells : BitStore
deriving DecidableEq

namespace Universe

/-- `Universe::idx`: `(y % self.height * self.width + x % self.width) as usize`,
all in `u32` arithmetic (hence the outer `% 2 ^ 32`; `usize` is 32 bits on the
`wasm32` target). -/
def idx (u : Universe) (x y : Nat) : Nat :=
  (y % u.height * u.width + x % u.width) % u32size

/-- `Universe::live_neighbor_count`: iterate `yo` over `[height - 1, 0, 1]` and
`xo` over `[width - 1, 0, 1]`, skip the `(0, 0)` offset, and accumulate
`self.cells.get(self.idx(x.wrapping_add(xo), y.wrapping_add(yo))) as u32`. -/
def liveNeighborCount (u : Universe) (x y : Nat) : Nat :=
  [u.height - 1, 0, 1].foldl (fun count yo =>
    [u.width - 1, 0, 1].foldl (fun count xo =>
      if xo = 0 ∧ yo = 0 then count
      else count + (u.cells.get (u.idx (wrapAdd32 x xo) (wrapAdd32 y yo))).toNat)
      count) 0

/-- `Universe::set_cells`: set each listed coordinate (mapped through `idx`)
to alive. -/
def setCells (u : Universe) (cs : List (Nat × Nat)) : Universe :=
  { u with cells := cs.foldl (fun s p => s.set (u.idx p.1 p.2) true) u.cells }

/-- The iteration order of `tick`'s nested loops:
`for y in 0..height { for x in 0..width { ... } }`. -/
def cellPairs (w h : Nat) : List (Nat × Nat) :=
  (List.range h).flatMap (fun y => (List.range w).map (fun x => (x, y)))

/-- The `match` in `tick`'s inner loop: `(true, x) if x < 2` and
`(true, x) if x > 3` clear the cell in the scratch store, `(false, 3)` sets
it, and every other case leaves the scratch store unchanged. -/
def tickRule (next : BitStore) (i : Nat) : Bool → Nat → BitStore
  | true, n => if n < 2 then next.set i false else if n > 3 then next.set i false else next
  | false, n => if n = 3 then next.set i true else next

/-- The body of `tick`'s inner loop for the cell `p = (x, y)`: reads the
pre-generation store `u.cells` and writes into the scratch store `next`. -/
def tickStep (u : Universe) (next : BitStore) (p : Nat × Nat) : BitStore :=
  tickRule next (u.idx p.1 p.2) (u.cells.get (u.idx p.1 p.2))
    (u.liveNeighborCount p.1 p.2)

/-- `Universe::tick`: clone the store, run the nested loops mutating the
clone, then replace the store with the clone. -/
def tick (u : Universe) : Universe :=
  { u with cells := (cellPairs u.width u.height).foldl (tickStep u) u.cells }

/-- `Universe::empty`: `BitStore::empty((width * height) as usize)`, where
`width * height` is a `u32` multiplication and therefore wraps. -/
def empty (w h : Nat) : Universe :=
  ⟨w, h, BitStore.empty (w * h % u32size)⟩

/-- `Universe::random`, with the external byte source injected. -/
def random (w h : Nat) (randByte : Nat → Nat) : Universe :=
  ⟨w, h, BitStore.random (w * h % u32size) randByte⟩

/-- `Universe::cells_size`. -/
def cellsSize (u : Universe) : Nat := u.cells.size

/-- Well-formed universes: those the `wasm32` program can actually hold.
`width`, `height` and the bit count `width * height` are `u32` values (so
`width * height < 2 ^ 32`), and the store was sized by the constructors to
`ceil(width * height / 8)` bytes. -/
@[reducible] def WF (u : Universe) : Prop :=
  u.width * u.height < u32size ∧
  u.cells.data.length =
    u.width * u.height / 8 + (if u.width * u.height % 8 ≠ 0 then 1 else 0)

end Universe

/-- The generational transition table, written from the spec (§4.4): a live
cell survives exactly with 2 or 3 live neighbors, a dead cell is born exactly
with 3. -/
def nextCellState (alive : Bool) (n : Nat) : Bool :=
  if alive then
    if n < 2 then false
    else if n = 2 ∨ n = 3 then true
    else false
  else
    n == 3

namespace Universe

theorem linIdx_lt (w h x y : Nat) (hx : x < w) (hy : y < h) : y * w + x < w * h := by
  calc y * w + x < y * w + w := Nat.add_lt_add_left hx _
  _ = (y + 1) * w := by ring
  _ ≤ h * w := Nat.mul_le_mul_right w hy
  _ = w * h := Nat.mul_comm h w

theorem linIdx_inj (w x1 y1 x2 y2 : Nat) (hx1 : x1 < w) (hx2 : x2 < w)
    (h : y1 * w + x1 = y2 * w + x2) : x1 = x2 ∧ y1 = y2 := by
  have hm := congrArg (fun t => t % w) h
  have hd := congrArg (fun t => t / w) h
  simp only [Nat.mul_comm _ w, Nat.mul_add_mod, Nat.mul_add_div (by omega : 0 < w),
    Nat.mod_eq_of_lt hx1, Nat.mod_eq_of_lt hx2, Nat.div_eq_of_lt hx1,
    Nat.div_eq_of_lt hx2] at hm hd
  omega

/-- On in-range coordinates of a well-formed universe, `idx` is the plain
row-major linear index. -/
theorem idx_eq (u : Universe) (hwf : u.WF) {x y : Nat}
    (hx : x < u.width) (hy : y < u.height) : u.idx x y = y * u.width + x := by
  rw [idx, Nat.mod_eq_of_lt hx, Nat.mod_eq_of_lt hy]
  exact Nat.mod_eq_of_lt (Nat.lt_trans (linIdx_lt _ _ _ _ hx hy) hwf.1)

/-- For any coordinates at all, `idx` lands below `width * height`. -/
theorem idx_lt (u : Universe) (hw : 0 < u.width) (hh : 0 < u.height)
    (hwh : u.width * u.height < u32size) (x y : Nat) :
    u.idx x y < u.width * u.height := by
  have h1 := linIdx_lt u.width u.height (x % u.width) (y % u.height)
    (Nat.mod_lt x hw) (Nat.mod_lt y hh)
  rw [idx, Nat.mod_eq_of_lt (Nat.lt_trans h1 hwh)]
  exact h1

theorem div8_lt_bytes (i n : Nat) (hi : i < n) :
    i / 8 < n / 8 + (if n % 8 ≠ 0 then 1 else 0) := by
  by_cases h8 : n % 8 = 0 <;> simp [h8] <;> omega

theorem tickRule_length (next : BitStore) (i : Nat) (alive : Bool) (n : Nat) :
    (tickRule next i alive n).data.length = next.data.length := by
  cases alive
  · show (if n = 3 then next.set i true else next).data.length = next.data.length
    split_ifs <;> simp [BitStore.length_set]
  · show (if n < 2 then next.set i false
        else if n > 3 then next.set i false else next).data.length = next.data.length
    split_ifs <;> simp [BitStore.length_set]

theorem tickRule_get_ne (next : BitStore) (i : Nat) (alive : Bool) (n j : Nat)
    (hne : i ≠ j) : (tickRule next i alive n).get j = next.get j := by
  cases alive
  · show (if n = 3 then next.set i true else next).get j = next.get j
    split_ifs <;>
      first
        | rfl
        | exact BitStore.get_set_ne _ _ _ _ (Ne.symm hne)
  · show (if n < 2 then next.set i false
        else if n > 3 then next.set i false else next).get j = next.get j
    split_ifs <;>
      first
        | rfl
        | exact BitStore.get_set_ne _ _ _ _ (Ne.symm hne)

theorem tickRule_get_eq (next : BitStore) (i : Nat) (alive : Bool) (n : Nat)
    (hs : next.get i = alive) (hlen : i / 8 < next.data.length) :
    (tickRule next i alive n).get i = nextCellState alive n := by
  cases alive
  · show (if n = 3 then next.set i true else next).get i = (n == 3)
    split_ifs with h3
    · rw [BitStore.get_set_eq _ _ _ hlen]
      simp [h3]
    · rw [hs]
      simp [h3]
  · show (if n < 2 then next.set i false
        else if n > 3 then next.set i false else next).get i
        = (if n < 2 then false else if n = 2 ∨ n = 3 then true else false)
    split_ifs
    · exact BitStore.get_set_eq _ _ _ hlen
    · exfalso; omega
    · exact BitStore.get_set_eq _ _ _ hlen
    · exact hs
    · exfalso; omega

theorem tickStep_length (u : Universe) (s : BitStore) (p : Nat × Nat) :
    (u.tickStep s p).data.length = s.data.length :=
  tickRule_length s _ _ _

theorem tickStep_get_ne (u : Universe) (s : BitStore) (p : Nat × Nat) (j : Nat)
    (hne : u.idx p.1 p.2 ≠ j) : (u.tickStep s p).get j = s.get j :=
  tickRule_get_ne s _ _ _ _ hne

theorem tickStep_get_eq (u : Universe) (s : BitStore) (p : Nat × Nat)
    (hs : s.get (u.idx p.1 p.2) = u.cells.get (u.idx p.1 p.2))
    (hlen : u.idx p.1 p.2 / 8 < s.data.length) :
    (u.tickStep s p).get (u.idx p.1 p.2)
      = nextCellState (u.cells.get (u.idx p.1 p.2)) (u.liveNeighborCount p.1 p.2) :=
  tickRule_get_eq s _ _ _ hs hlen

theorem foldl_tickStep_length (u : Universe) (l : List (Nat × Nat)) :
    ∀ s : BitStore, (l.foldl (u.tickStep) s).data.length = s.data.length := by
  induction l with
  | nil => intro s; rfl
  | cons q t ih => intro s; rw [List.foldl_cons, ih, tickStep_length]

theorem foldl_tickStep_get_ne (u : Universe) (l : List (Nat × Nat)) :
    ∀ (s : BitStore) (j : Nat), (∀ q ∈ l, u.idx q.1 q.2 ≠ j) →
      (l.foldl (u.tickStep) s).get j = s.get j := by
  induction l with
  | nil => intro s j _; rfl
  | cons q t ih =>
    intro s j hq
    rw [List.foldl_cons, ih _ _ (fun r hr => hq r (List.mem_cons_of_mem _ hr)),
      tickStep_get_ne _ _ _ _ (hq q (List.mem_cons_self _ _))]

/-- The heart of the `tick` correctness proof: folding the loop body over a
duplicate-free list of cells whose indices separate the target cell computes
exactly the transition table at the target. -/
theorem foldl_tickStep_get (u : Universe) (l : List (Nat × Nat)) :
    ∀ (s : BitStore) (p : Nat × Nat), p ∈ l → l.Nodup →
      (∀ q ∈ l, u.idx q.1 q.2 = u.idx p.1 p.2 → q = p) →
      s.get (u.idx p.1 p.2) = u.cells.get (u.idx p.1 p.2) →
      u.idx p.1 p.2 / 8 < s.data.length →
      (l.foldl (u.tickStep) s).get (u.idx p.1 p.2)
        = nextCellState (u.cells.get (u.idx p.1 p.2)) (u.liveNeighborCount p.1 p.2) := by
  induction l with
  | nil => intro s p hp; cases hp
  | cons q t ih =>
    intro s p hp hnd hinj hs hlen
    rw [List.foldl_cons]
    rcases List.mem_cons.mp hp with hqp | hpt
    · subst hqp
      have hnotin : p ∉ t := (List.nodup_cons.mp hnd).1
      have hne : ∀ r ∈ t, u.idx r.1 r.2 ≠ u.idx p.1 p.2 := by
        intro r hr hcontra
        exact hnotin ((hinj r (List.mem_cons_of_mem _ hr) hcontra) ▸ hr)
      rw [foldl_tickStep_get_ne u t _ _ hne]
      exact tickStep_get_eq u s p hs hlen
    · have hqp : q ≠ p := fun h => (List.nodup_cons.mp hnd).1 (h ▸ hpt)
      have hqi : u.idx q.1 q.2 ≠ u.idx p.1 p.2 :=
        fun h => hqp (hinj q (List.mem_cons_self _ _) h)
      refine ih _ p hpt (List.nodup_cons.mp hnd).2
        (fun r hr => hinj r (List.mem_cons_of_mem _ hr)) ?_ ?_
      · rw [tickStep_get_ne _ _ _ _ hqi, hs]
      · rw [tickStep_length]; exact hlen

theorem mem_cellPairs (w h : Nat) (p : Nat × Nat) :
    p ∈ cellPairs w h ↔ p.1 < w ∧ p.2 < h := by
  rcases p with ⟨x, y⟩
  constructor
  · intro hp
    simp only [cellPairs, List.mem_flatMap, List.mem_map, List.mem_range] at hp
    rcases hp with ⟨b, hb, a, ha, heq⟩
    injection heq with h1 h2
    exact ⟨h1 ▸ ha, h2 ▸ hb⟩
  · intro ⟨hx, hy⟩
    simp only [cellPairs, List.mem_flatMap, List.mem_map, List.mem_range]
    exact ⟨y, hy, x, hx, rfl⟩

theorem nodup_cellPairs (w h : Nat) : (cellPairs w h).Nodup := by
  rw [cellPairs, List.nodup_flatMap]
  constructor
  · intro y _
    exact (List.nodup_range w).map (fun a b hab => (Prod.ext_iff.mp hab).1)
  · refine (List.nodup_range h).imp ?_
    intro a b hab q hqa hqb
    simp only [List.mem_map, List.mem_range] at hqa hqb
    rcases hqa with ⟨x1, _, rfl⟩
    rcases hqb with ⟨x2, _, heq⟩
    injection heq with h1 h2
    exact hab h2.symm

end Universe

/-- A 4x4 universe with a vertical blinker, as in the repository's own
neighbor-count test. -/
def blinker : Universe := (Universe.empty 4 4).setCells [(1, 0), (1, 1), (1, 2)]

/-- C1: for every (wasm-representable) universe with positive dimensions and
every cell `(x, y)` of the grid, `tick` stores at that cell exactly the Conway
rule applied to the cell's pre-tick state and pre-tick live-neighbor count; in
particular each cell's next state is a function of the pre-tick grid only. -/
theorem tick_next_generation_rule (u : Universe) (hw : 1 ≤ u.width)
    (hh : 1 ≤ u.height) (hwf : u.WF) (x y : Nat)
    (hx : x < u.width) (hy : y < u.height) :
    u.tick.cells.get (u.idx x y)
      = nextCellState (u.cells.get (u.idx x y)) (u.liveNeighborCount x y) := by
  have hmem : ((x, y) : Nat × Nat) ∈ Universe.cellPairs u.width u.height :=
    (Universe.mem_cellPairs _ _ _).mpr ⟨hx, hy⟩
  have hinj : ∀ q ∈ Universe.cellPairs u.width u.height,
      u.idx q.1 q.2 = u.idx x y → q = (x, y) := by
    intro q hq heq
    have hq2 := (Universe.mem_cellPairs _ _ _).mp hq
    rw [u.idx_eq hwf hq2.1 hq2.2, u.idx_eq hwf hx hy] at heq
    have h := Universe.linIdx_inj u.width q.1 q.2 x y hq2.1 hx heq
    exact Prod.ext_iff.mpr ⟨h.1, h.2⟩
  have hlen : u.idx x y / 8 < u.cells.data.length := by
    rw [hwf.2, u.idx_eq hwf hx hy]
    exact Universe.div8_lt_bytes _ _ (Universe.linIdx_lt _ _ _ _ hx hy)
  exact Universe.foldl_tickStep_get u (Universe.cellPairs u.width u.height)
    u.cells (x, y) hmem (Universe.nodup_cellPairs _ _) hinj rfl hlen

/-- Witness for C1: the center column cell of the blinker universe. -/
theorem tick_next_generation_rule_witness :
    1 ≤ blinker.width ∧ 1 ≤ blinker.height ∧ blinker.WF ∧
      1 < blinker.width ∧ 1 < blinker.height ∧
      blinker.tick.cells.get (blinker.idx 1 1)
        = nextCellState (blinker.cells.get (blinker.idx 1 1))
            (blinker.liveNeighborCount 1 1) :=
  ⟨by decide, by decide, by decide, by decide, by decide,
    tick_next_generation_rule blinker (by decide) (by decide) (by decide) 1 1
      (by decide) (by decide)⟩

/-- The offset list named by the claim: `dx ∈ {width-1, 0, 1}` and
`dy ∈ {height-1, 0, 1}`, excluding the `(0, 0)` offset. -/
def mooreOffsets (w h : Nat) : List (Nat × Nat) :=
  ([h - 1, 0, 1].flatMap (fun dy => [w - 1, 0, 1].map (fun dx => (dx, dy)))).filter
    (fun p => decide (p ≠ (0, 0)))

/-- The claim's formula for the neighbor count: the sum, over the offsets, of
the live state of the cell at `(x + dx, y + dy)` (coordinates added in the
code's `u32` arithmetic) mapped through the toroidal `idx`. -/
def mooreNeighborSum (u : Universe) (x y : Nat) : Nat :=
  ((mooreOffsets u.width u.height).map
    (fun p => (u.cells.get (u.idx (wrapAdd32 x p.1) (wrapAdd32 y p.2))).toNat)).sum

theorem mooreOffsets_length_le (w h : Nat) : (mooreOffsets w h).length ≤ 8 := by
  have h9 : ([h - 1, 0, 1].flatMap
      (fun dy => [w - 1, 0, 1].map (fun dx => (dx, dy)))).length = 9 := by
    simp [List.length_flatMap]
  have hlt : (mooreOffsets w h).length
      < ([h - 1, 0, 1].flatMap
          (fun dy => [w - 1, 0, 1].map (fun dx => (dx, dy)))).length := by
    apply List.length_filter_lt_length_iff_exists.mpr
    refine ⟨(0, 0), List.mem_flatMap.mpr ⟨0, by simp, by simp⟩, by simp⟩
  omega

theorem liveNeighborCount_eq_mooreSum (u : Universe) (x y : Nat) :
    u.liveNeighborCount x y = mooreNeighborSum u x y := by
  by_cases hw1 : u.width - 1 = 0 <;> by_cases hh1 : u.height - 1 = 0 <;>
    simp [Universe.liveNeighborCount, mooreNeighborSum, mooreOffsets, hw1, hh1,
      Prod.ext_iff] <;>
    ring

/-- C2: `live_neighbor_count` equals the sum of the live states over the
claim's Moore-neighborhood offsets (each neighbor mapped through the toroidal
`idx`), and the result never exceeds 8. -/
theorem live_neighbor_count_spec (u : Universe) (hw : 1 ≤ u.width)
    (hh : 1 ≤ u.height) (x y : Nat) (hx : x < u.width) (hy : y < u.height) :
    u.liveNeighborCount x y = mooreNeighborSum u x y ∧
      u.liveNeighborCount x y ≤ 8 := by
  refine ⟨liveNeighborCount_eq_mooreSum u x y, ?_⟩
  rw [liveNeighborCount_eq_mooreSum u x y]
  have h1 : ∀ t ∈ (mooreOffsets u.width u.height).map
      (fun p => (u.cells.get (u.idx (wrapAdd32 x p.1) (wrapAdd32 y p.2))).toNat),
      t ≤ 1 := by
    intro t ht
    rcases List.mem_map.mp ht with ⟨p, _, rfl⟩
    exact Bool.toNat_le _
  have h2 := List.sum_le_card_nsmul _ 1 h1
  simp only [smul_eq_mul, mul_one, List.length_map] at h2
  exact le_trans h2 (mooreOffsets_length_le u.width u.height)

/-- Witness for C2: the center cell of the blinker universe. -/
theorem live_neighbor_count_spec_witness :
    1 ≤ blinker.width ∧ 1 ≤ blinker.height ∧ 1 < blinker.width ∧
      1 < blinker.height ∧
      (blinker.liveNeighborCount 1 1 = mooreNeighborSum blinker 1 1 ∧
        blinker.liveNeighborCount 1 1 ≤ 8) :=
  ⟨by decide, by decide, by decide, by decide,
    live_neighbor_count_spec blinker (by decide) (by decide) 1 1
      (by decide) (by decide)⟩

/-- The 6x6 universe of the repository's `test_spaceship_tick`, with the five
input cells set alive. -/
def inputSpaceship : Universe :=
  (Universe.empty 6 6).setCells [(1, 2), (2, 3), (3, 1), (3, 2), (3, 3)]

/-- The live cells the test expects after one tick. -/
def expectedSpaceshipCells : List (Nat × Nat) :=
  [(2, 1), (2, 3), (3, 2), (3, 3), (4, 2)]

/-- C3: on the 6x6 universe seeded with `(1,2), (2,3), (3,1), (3,2), (3,3)`,
one `tick` leaves exactly the cells `(2,1), (2,3), (3,2), (3,3), (4,2)` alive
and every other cell dead. -/
theorem spaceship_tick_step : ∀ x, x < 6 → ∀ y, y < 6 →
    inputSpaceship.tick.cells.get (inputSpaceship.idx x y)
      = expectedSpaceshipCells.contains (x, y) := by decide

/-- Witness for C3: the cell `(4, 2)` is alive after the tick. -/
theorem spaceship_tick_step_witness :
    4 < 6 ∧ 2 < 6 ∧
      inputSpaceship.tick.cells.get (inputSpaceship.idx 4 2)
        = expectedSpaceshipCells.contains (4, 2) :=
  ⟨by decide, by decide, spaceship_tick_step 4 (by decide) 2 (by decide)⟩

/-- C4: for any store, valid index `i` and boolean `v`, `set i v` followed by
`get i` returns `v`, and `get j` is unchanged for every other valid index. -/
theorem bitstore_set_get_roundtrip (s : BitStore) (i j : Nat) (v : Bool)
    (hi : i / 8 < s.size) (hj : j / 8 < s.size) (hne : j ≠ i) :
    (s.set i v).get i = v ∧ (s.set i v).get j = s.get j :=
  ⟨BitStore.get_set_eq s i v hi, BitStore.get_set_ne s i j v hne⟩

/-- Witness for C4 on a two-byte store. -/
theorem bitstore_set_get_roundtrip_witness :
    (3 : Nat) / 8 < (BitStore.mk [0, 255]).size ∧
      (9 : Nat) / 8 < (BitStore.mk [0, 255]).size ∧ (9 : Nat) ≠ 3 ∧
      (((BitStore.mk [0, 255]).set 3 true).get 3 = true ∧
        ((BitStore.mk [0, 255]).set 3 true).get 9 = (BitStore.mk [0, 255]).get 9) :=
  ⟨by decide, by decide, by decide,
    bitstore_set_get_roundtrip (BitStore.mk [0, 255]) 3 9 true
      (by decide) (by decide) (by decide)⟩

/-- C5: `get` follows the LSB-first convention `(byte >> (i % 8)) & 1 = 1`,
and `set i v` modifies exactly bit `i % 8` of byte `i / 8`: that bit becomes
`v` and every other bit position of the buffer keeps its value. -/
theorem bitstore_lsb_convention (s : BitStore) (i : Nat) (v : Bool)
    (hi : i / 8 < s.size) :
    (s.get i = true ↔ s.data.getD (i / 8) 0 >>> (i % 8) &&& 1 = 1) ∧
      ((s.set i v).data.getD (i / 8) 0).testBit (i % 8) = v ∧
      (∀ k m, m < 8 → ¬(k = i / 8 ∧ m = i % 8) →
        ((s.set i v).data.getD k 0).testBit m = (s.data.getD k 0).testBit m) := by
  refine ⟨?_, (BitStore.get_eq_testBit _ i).symm.trans (BitStore.get_set_eq s i v hi), ?_⟩
  · rw [BitStore.get_eq_testBit, Nat.and_one_is_mod, Nat.shiftRight_eq_div_pow,
      Nat.testBit_to_div_mod]
    simp
  · intro k m hm hne
    rw [BitStore.set_data]
    by_cases hk : k = i / 8
    · subst hk
      rw [BitStore.getD_set_self _ _ _ _ hi]
      have hbit : m ≠ i % 8 := fun hb => hne ⟨rfl, hb⟩
      have h255 := BitStore.testBit_255 m hm
      rcases v with _ | _ <;>
        simp [BitStore.mask_eq_two_pow, Nat.testBit_land, Nat.testBit_lor,
          Nat.testBit_xor, Nat.testBit_two_pow, h255, Ne.symm hbit]
    · rw [BitStore.getD_set_ne _ _ _ _ _ (fun hb => hk hb.symm)]

/-- Witness for C5 on the store `[5, 0]` at index 2. -/
theorem bitstore_lsb_convention_witness :
    (2 : Nat) / 8 < (BitStore.mk [5, 0]).size ∧
      (((BitStore.mk [5, 0]).get 2 = true ↔
          (BitStore.mk [5, 0]).data.getD (2 / 8) 0 >>> (2 % 8) &&& 1 = 1) ∧
        (((BitStore.mk [5, 0]).set 2 false).data.getD (2 / 8) 0).testBit (2 % 8)
          = false ∧
        (∀ k m, m < 8 → ¬(k = 2 / 8 ∧ m = 2 % 8) →
          (((BitStore.mk [5, 0]).set 2 false).data.getD k 0).testBit m
            = ((BitStore.mk [5, 0]).data.getD k 0).testBit m)) :=
  ⟨by decide, bitstore_lsb_convention (BitStore.mk [5, 0]) 2 false (by decide)⟩

/-- `pub enum Transformation` from the shape library. -/
inductive Transformation where
  | Identity
  | RotateLeft
  | RotateRight
  | Reflect
deriving DecidableEq

/-- `pub fn transform((x, y): (u32, u32), w: u32, h: u32, t: Transformation)`.
The subtractions are `u32` subtractions; on coordinates inside the `w × h`
box they never underflow, where `Nat` subtraction agrees with them. -/
def transform (p : Nat × Nat) (w h : Nat) (t : Transformation) : Nat × Nat :=
  match t with
  | Transformation.Identity => p
  | Transformation.RotateRight => (h - p.2 - 1, p.1)
  | Transformation.Reflect => (w - p.1 - 1, h - 1 - p.2)
  | Transformation.RotateLeft => (p.2, w - p.1 - 1)

/-- The coordinate box `[0, w) × [0, h)` of a bounding box. -/
def box (w h : Nat) : Set (Nat × Nat) := {p | p.1 < w ∧ p.2 < h}

/-- C6: the four transformation formulas as the spec states them. -/
theorem transform_formulas (w h x y : Nat) (hw : 1 ≤ w) (hh : 1 ≤ h)
    (hx : x < w) (hy : y < h) :
    transform (x, y) w h Transformation.Identity = (x, y) ∧
      transform (x, y) w h Transformation.RotateRight = (h - y - 1, x) ∧
      transform (x, y) w h Transformation.RotateLeft = (y, w - x - 1) ∧
      transform (x, y) w h Transformation.Reflect = (w - x - 1, h - y - 1) := by
  refine ⟨rfl, rfl, rfl, ?_⟩
  show ((w - x - 1, h - 1 - y) : Nat × Nat) = (w - x - 1, h - y - 1)
  simp only [Prod.mk.injEq]
  exact ⟨trivial, by omega⟩

/-- Witness for C6 at `(1, 0)` in a 3x2 box. -/
theorem transform_formulas_witness :
    1 ≤ 3 ∧ 1 ≤ 2 ∧ 1 < 3 ∧ 0 < 2 ∧
      (transform (1, 0) 3 2 Transformation.Identity = (1, 0) ∧
        transform (1, 0) 3 2 Transformation.RotateRight = (2 - 0 - 1, 1) ∧
        transform (1, 0) 3 2 Transformation.RotateLeft = (0, 3 - 1 - 1) ∧
        transform (1, 0) 3 2 Transformation.Reflect = (3 - 1 - 1, 2 - 0 - 1)) :=
  ⟨by decide, by decide, by decide, by decide,
    transform_formulas 3 2 1 0 (by decide) (by decide) (by decide) (by decide)⟩

/-- C7: rotate-right then rotate-left (against the rotated box) is the
identity, and vice versa; reflect is an involution on its box; and each of the
four transformations is a bijection from the `w × h` box onto the (possibly
rotated) image box. -/
theorem transform_bijection (w h : Nat) (hw : 1 ≤ w) (hh : 1 ≤ h) :
    (∀ x y, x < w → y < h →
      transform (transform (x, y) w h Transformation.RotateRight) h w
        Transformation.RotateLeft = (x, y)) ∧
    (∀ x y, x < w → y < h →
      transform (transform (x, y) w h Transformation.RotateLeft) h w
        Transformation.RotateRight = (x, y)) ∧
    (∀ x y, x < w → y < h →
      transform (transform (x, y) w h Transformation.Reflect) w h
        Transformation.Reflect = (x, y)) ∧
    Set.BijOn (fun p => transform p w h Transformation.Identity)
      (box w h) (box w h) ∧
    Set.BijOn (fun p => transform p w h Transformation.RotateRight)
      (box w h) (box h w) ∧
    Set.BijOn (fun p => transform p w h Transformation.RotateLeft)
      (box w h) (box h w) ∧
    Set.BijOn (fun p => transform p w h Transformation.Reflect)
      (box w h) (box w h) := by
  have hRL : ∀ x y, x < w → y < h →
      transform (transform (x, y) w h Transformation.RotateRight) h w
        Transformation.RotateLeft = (x, y) := by
    intro x y hx hy
    simp only [transform, Prod.mk.injEq]
    exact ⟨trivial, by omega⟩
  have hLR : ∀ x y, x < w → y < h →
      transform (transform (x, y) w h Transformation.RotateLeft) h w
        Transformation.RotateRight = (x, y) := by
    intro x y hx hy
    simp only [transform, Prod.mk.injEq]
    exact ⟨by omega, trivial⟩
  have hRR : ∀ x y, x < w → y < h →
      transform (transform (x, y) w h Transformation.Reflect) w h
        Transformation.Reflect = (x, y) := by
    intro x y hx hy
    simp only [transform, Prod.mk.injEq]
    exact ⟨by omega, by omega⟩
  refine ⟨hRL, hLR, hRR, ?_, ?_, ?_, ?_⟩
  · have hinv : Set.InvOn (fun p => transform p w h Transformation.Identity)
        (fun p => transform p w h Transformation.Identity)
        (box w h) (box w h) :=
      ⟨fun p _ => rfl, fun p _ => rfl⟩
    exact hinv.bijOn (fun p hp => hp) (fun p hp => hp)
  · have hinv : Set.InvOn (fun q => transform q h w Transformation.RotateLeft)
        (fun p => transform p w h Transformation.RotateRight)
        (box w h) (box h w) := by
      constructor
      · intro ⟨a, b⟩ ⟨h1, h2⟩
        exact hRL a b h1 h2
      · intro ⟨a, b⟩ ⟨h1, h2⟩
        simp only [transform, Prod.mk.injEq]
        exact ⟨by omega, trivial⟩
    refine hinv.bijOn ?_ ?_
    · intro ⟨a, b⟩ ⟨h1, h2⟩
      exact ⟨by simp [transform]; omega, by simpa [transform] using h1⟩
    · intro ⟨a, b⟩ ⟨h1, h2⟩
      exact ⟨by simpa [transform] using h2, by simp [transform]; omega⟩
  · have hinv : Set.InvOn (fun q => transform q h w Transformation.RotateRight)
        (fun p => transform p w h Transformation.RotateLeft)
        (box w h) (box h w) := by
      constructor
      · intro ⟨a, b⟩ ⟨h1, h2⟩
        exact hLR a b h1 h2
      · intro ⟨a, b⟩ ⟨h1, h2⟩
        simp only [transform, Prod.mk.injEq]
        exact ⟨trivial, by omega⟩
    refine hinv.bijOn ?_ ?_
    · intro ⟨a, b⟩ ⟨h1, h2⟩
      exact ⟨by simpa [transform] using h2, by simp [transform]; omega⟩
    · intro ⟨a, b⟩ ⟨h1, h2⟩
      exact ⟨by simp [transform]; omega, by simpa [transform] using h1⟩
  · have hinv : Set.InvOn (fun p => transform p w h Transformation.Reflect)
        (fun p => transform p w h Transformation.Reflect)
        (box w h) (box w h) := by
      constructor
      · intro ⟨a, b⟩ ⟨h1, h2⟩
        exact hRR a b h1 h2
      · intro ⟨a, b⟩ ⟨h1, h2⟩
        exact hRR a b h1 h2
    refine hinv.bijOn ?_ ?_ <;>
      · intro ⟨a, b⟩ ⟨h1, h2⟩
        exact ⟨by simp [transform]; omega, by simp [transform]; omega⟩

/-- Witness for C7 with a 3x2 box. -/
theorem transform_bijection_witness :
    1 ≤ 3 ∧ 1 ≤ 2 ∧
      (∀ x y, x < 3 → y < 2 →
        transform (transform (x, y) 3 2 Transformation.RotateRight) 2 3
          Transformation.RotateLeft = (x, y)) :=
  ⟨by decide, by decide, (transform_bijection 3 2 (by decide) (by decide)).1⟩

namespace Universe

/-- Every index the universe can hand to its store stays within the allocated
bytes (all store accesses of `tick`, `live_neighbor_count` and `set_cells` go
through `idx`). -/
def indicesInBounds (u : Universe) : Prop :=
  ∀ x y, u.idx x y / 8 < u.cells.size

theorem foldl_setCells_length (u : Universe) (cs : List (Nat × Nat)) :
    ∀ s : BitStore,
      (cs.foldl (fun s p => s.set (u.idx p.1 p.2) true) s).data.length
        = s.data.length := by
  induction cs with
  | nil => intro s; rfl
  | cons q t ih => intro s; rw [List.foldl_cons, ih, BitStore.length_set]

end Universe

/-- Counterexample to C8 as stated: `empty 65536 65536` computes the bit count
`width * height` in `u32`, which wraps to 0, so the store has zero bytes while
`idx 0 0 = 0` would read byte 0. -/
theorem universe_index_bounds_counterexample :
    ¬ ((Universe.empty 65536 65536).idx 0 0 / 8
        < (Universe.empty 65536 65536).cells.size) := by decide

/-- C8 (amended): when `width * height` additionally fits in `u32`, every
index the Universe passes to the store is within the byte length — for both
constructors, and preserved through `tick` and `set_cells`. -/
theorem universe_indices_in_bounds (w h : Nat) (hw : 1 ≤ w) (hh : 1 ≤ h)
    (hwh : w * h < u32size) :
    (Universe.empty w h).indicesInBounds ∧
      (∀ f, (Universe.random w h f).indicesInBounds) ∧
      (∀ u : Universe, u.indicesInBounds →
        u.tick.indicesInBounds ∧ ∀ cs, (u.setCells cs).indicesInBounds) := by
  have hbound : ∀ u : Universe, u.width = w → u.height = h →
      u.cells.size = w * h / 8 + (if w * h % 8 ≠ 0 then 1 else 0) →
      u.indicesInBounds := by
    intro u huw huh hsize x y
    rw [hsize]
    apply Universe.div8_lt_bytes
    have hlt := u.idx_lt (by omega) (by omega)
      (by rw [huw, huh]; exact hwh) x y
    rw [huw, huh] at hlt
    exact hlt
  refine ⟨?_, ?_, ?_⟩
  · exact hbound _ rfl rfl
      (by simp [Universe.empty, BitStore.empty, BitStore.size, Nat.mod_eq_of_lt hwh])
  · intro f
    exact hbound _ rfl rfl
      (by simp [Universe.random, BitStore.random, BitStore.size, Nat.mod_eq_of_lt hwh])
  · intro u hu
    constructor
    · intro x y
      have hs := Universe.foldl_tickStep_length u
        (Universe.cellPairs u.width u.height) u.cells
      show u.idx x y / 8 < u.tick.cells.data.length
      rw [show u.tick.cells.data.length = u.cells.data.length from hs]
      exact hu x y
    · intro cs x y
      have hs := Universe.foldl_setCells_length u cs u.cells
      show u.idx x y / 8 < (u.setCells cs).cells.data.length
      rw [show (u.setCells cs).cells.data.length = u.cells.data.length from hs]
      exact hu x y

/-- Witness for the amended C8 on a 4x4 universe. -/
theorem universe_indices_in_bounds_witness :
    1 ≤ 4 ∧ 1 ≤ 4 ∧ 4 * 4 < u32size ∧
      ((Universe.empty 4 4).indicesInBounds ∧
        (∀ f, (Universe.random 4 4 f).indicesInBounds) ∧
        (∀ u : Universe, u.indicesInBounds →
          u.tick.indicesInBounds ∧ ∀ cs, (u.setCells cs).indicesInBounds)) :=
  ⟨by decide, by decide, by decide,
    universe_indices_in_bounds 4 4 (by decide) (by decide) (by decide)⟩

/-- Rust's `%` on `u32` with divisor 0 is a divide-by-zero panic, modelled as
`none`. -/
def checkedMod (a b : Nat) : Option Nat :=
  if b = 0 then none else some (a % b)

namespace Universe

/-- `Universe::idx` with the divide-by-zero panic made explicit: the code
evaluates `y % height` first, then `x % width`. -/
def idxChecked (u : Universe) (x y : Nat) : Option Nat := do
  let yr ← checkedMod y u.height
  let xr ← checkedMod x u.width
  pure ((yr * u.width + xr) % u32size)

/-- On positive dimensions the checked mapping agrees with `idx`. -/
theorem idxChecked_eq_idx (u : Universe) (hw : 0 < u.width) (hh : 0 < u.height)
    (x y : Nat) : u.idxChecked x y = some (u.idx x y) := by
  simp [Universe.idxChecked, checkedMod, Universe.idx, hw.ne', hh.ne']

end Universe

/-- C9: with width 0 or height 0 the constructor still returns a `Universe`
value, but every use of the coordinate mapping divides by zero, so no usable
universe results. -/
theorem zero_dimension_idx_fails (w h : Nat) (hzero : w = 0 ∨ h = 0) :
    ∀ x y, (Universe.empty w h).idxChecked x y = none := by
  intro x y
  rcases hzero with hz | hz <;> subst hz
  · by_cases hh0 : h = 0 <;>
      simp [Universe.idxChecked, checkedMod, Universe.empty, hh0]
  · simp [Universe.idxChecked, checkedMod, Universe.empty]

/-- Witness for C9: a 0x3 universe. -/
theorem zero_dimension_idx_fails_witness :
    ((0 : Nat) = 0 ∨ (3 : Nat) = 0) ∧
      (Universe.empty 0 3).idxChecked 5 7 = none :=
  ⟨Or.inl rfl, zero_dimension_idx_fails 0 3 (Or.inl rfl) 5 7⟩

/-- C10: `tick` changes neither the width, nor the height, nor the byte length
reported by `cells_size`. -/
theorem tick_frame (u : Universe) (hw : 1 ≤ u.width) (hh : 1 ≤ u.height) :
    u.tick.width = u.width ∧ u.tick.height = u.height ∧
      u.tick.cellsSize = u.cellsSize :=
  ⟨rfl, rfl, Universe.foldl_tickStep_length u _ u.cells⟩

/-- Witness for C10 on the blinker universe. -/
theorem tick_frame_witness :
    1 ≤ blinker.width ∧ 1 ≤ blinker.height ∧
      (blinker.tick.width = blinker.width ∧
        blinker.tick.height = blinker.height ∧
        blinker.tick.cellsSize = blinker.cellsSize) :=
  ⟨by decide, by decide, tick_frame blinker (by decide) (by decide)⟩
